import Mathlib

/-!
Shallow embedding of the cuti-cli holiday scraper (Go sources `main.go` and
`scraper/scraper.go`). Pure logic — date normalization, state-name
canonicalization, row-to-record mapping, consolidation and the driver loop —
is translated into executable Lean definitions; the browser transport is
abstracted as the list of raw rows it yields (for `FetchState`) and as a
fetch function parameter (for the driver).
-/

/-- The `Holiday` struct of `scraper/scraper.go`. -/
structure Holiday where
  date : String
  day : String
  name : String
  states : List String
deriving DecidableEq

/-! ## Date Normalizer (`normalizeDate` and Go `time.Parse` for layouts `2 Jan`, `2 January`) -/

/-- Go `time` short month names table (`shortMonthNames`). -/
def shortMonthNames : List String :=
  ["Jan", "Feb", "Mar", "Apr", "May", "Jun",
   "Jul", "Aug", "Sep", "Oct", "Nov", "Dec"]

/-- Go `time` long month names table (`longMonthNames`). -/
def longMonthNames : List String :=
  ["January", "February", "March", "April", "May", "June",
   "July", "August", "September", "October", "November", "December"]

/-- One-character case-insensitive comparison, as in the Go `time` function `match`:
two characters match when equal, or when they lowercase to the same ASCII
letter (Go sets the `0x20` bit on both and requires the result in `a`..`z`). -/
def charMatch (c1 c2 : Char) : Bool :=
  c1 == c2 ||
    (Char.toLower c1 == Char.toLower c2 &&
      97 ≤ (Char.toLower c1).toNat && (Char.toLower c1).toNat ≤ 122)

/-- Consume `pat` from the front of `val` case-insensitively (the Go `time` function `match` applied
to a table entry prefix); returns the rest of `val` on success. -/
def takeMatch : List Char → List Char → Option (List Char)
  | [], val => some val
  | _ :: _, [] => none
  | p :: ps, c :: cs => if charMatch p c then takeMatch ps cs else none

/-- The Go `time` function `lookup`: find the first table entry matching a
prefix of the value case-insensitively; returns the index of the entry and
the remaining value. -/
def lookupTab : List String → Nat → List Char → Option (Nat × List Char)
  | [], _, _ => none
  | v :: rest, idx, s =>
    match takeMatch v.data s with
    | some remaining => some (idx, remaining)
    | none => lookupTab rest (idx + 1) s

/-- The Go `time` function `getnum` with `fixed = false` (layout digit `2`): reads one
digit, or two when a second digit follows. -/
def getnum2 : List Char → Option (Nat × List Char)
  | [] => none
  | c1 :: rest =>
    if c1.isDigit then
      match rest with
      | c2 :: rest2 =>
        if c2.isDigit then some ((c1.toNat - 48) * 10 + (c2.toNat - 48), rest2)
        else some (c1.toNat - 48, rest)
      | [] => some (c1.toNat - 48, [])
    else none

/-- The Go `time` function `daysIn(month, 0)`: the parse year defaults to 0, which Go
treats as a leap year, so February has 29 days. -/
def daysIn (m : Nat) : Nat :=
  if m = 2 then 29
  else if m = 4 ∨ m = 6 ∨ m = 9 ∨ m = 11 then 30
  else 31

/-- Go `time.Parse` for a layout of shape `2 <month-name>`: a 1–2 digit day,
a literal space, a month name from `tab` (index + 1 is the month number), no
trailing text, and the day within range for the month. Returns
`(month, day)` on success. -/
def parseDayMonth (tab : List String) (s : String) : Option (Nat × Nat) :=
  match getnum2 s.data with
  | none => none
  | some (day, rest) =>
    match rest with
    | ' ' :: rest2 =>
      match lookupTab tab 0 rest2 with
      | none => none
      | some (idx, rest3) =>
        if rest3 = [] then
          if 1 ≤ day ∧ day ≤ daysIn (idx + 1) then some (idx + 1, day) else none
        else none
    | _ => none

/-- The layout loop of `normalizeDate`: try layout `"2 Jan"` first, then
`"2 January"`; the first successful parse wins. -/
def parseDateText (s : String) : Option (Nat × Nat) :=
  match parseDayMonth shortMonthNames s with
  | some r => some r
  | none => parseDayMonth longMonthNames s

/-- Go `%02d`: decimal rendering zero-padded to two digits. -/
def pad2 (n : Nat) : String :=
  if n < 10 then "0" ++ toString n else toString n

/-- Go `strings.ReplaceAll(s, " ", "-")`. -/
def replaceSpaceHyphen (s : String) : String :=
  String.mk (s.data.map (fun c => if c = ' ' then '-' else c))

/-- `normalizeDate` of `scraper/scraper.go`: on a successful layout parse,
format as `fmt.Sprintf("%d-%02d-%02d", year, month, day)`; otherwise fall
back to the year followed by the input with spaces replaced by hyphens. -/
def normalizeDate (dateStr : String) (year : Int) : String :=
  match parseDateText dateStr with
  | some (m, d) => toString year ++ "-" ++ pad2 m ++ "-" ++ pad2 d
  | none => toString year ++ "-" ++ replaceSpaceHyphen dateStr

/-! ## State-Name Canonicalizer (`normalizeState`) -/

/-- Go `strings.ReplaceAll(s, "&", "and")` at character level. -/
def replaceAmpAnd : List Char → List Char
  | [] => []
  | c :: rest =>
    if c = '&' then 'a' :: 'n' :: 'd' :: replaceAmpAnd rest
    else c :: replaceAmpAnd rest

/-- The generic transformation of `normalizeState`: lowercase, then replace
spaces with hyphens, then replace ampersands with `and`. -/
def stateTransform (s : String) : String :=
  String.mk (replaceAmpAnd ((s.data.map Char.toLower).map
    (fun c => if c = ' ' then '-' else c)))

/-- `normalizeState` of `scraper/scraper.go`: generic transformation followed
by the fixed special-case rename table. -/
def normalizeState (st : String) : String :=
  let t := stateTransform st
  if t = "malacca" then "melaka"
  else if t = "kualalumpur" then "kuala-lumpur"
  else if t = "putrajayaand-selangor" ∨ t = "putrajaya-selangor" then "putrajaya"
  else t

/-! ## Consolidator (`Consolidate`, `unique`) -/

/-- The loop of `unique`: `seen` is the set of already-emitted strings. -/
def uniqueGo (seen : List String) : List String → List String
  | [] => []
  | s :: rest =>
    if s ∈ seen then uniqueGo seen rest
    else s :: uniqueGo (s :: seen) rest

/-- `unique` of `scraper/scraper.go`: keep the first occurrence of each
string, in order. -/
def unique (input : List String) : List String :=
  uniqueGo [] input

/-- The merge key of `Consolidate`: `h.Date + "|" + h.Name`. -/
def hKey (h : Holiday) : String :=
  h.date ++ "|" ++ h.name

/-- One iteration of the loop of `Consolidate` over the `merged` map,
modelled as
an insertion-ordered association list keyed by `hKey`: on collision, extend
the states of the existing record and deduplicate; on first sight,
deduplicate the states of the new record itself and insert. -/
def mergeStep (acc : List Holiday) (h : Holiday) : List Holiday :=
  if acc.any (fun e => hKey e == hKey h) then
    acc.map (fun e =>
      if hKey e == hKey h then { e with states := unique (e.states ++ h.states) } else e)
  else
    acc ++ [{ h with states := unique h.states }]

/-- The full merge loop of `Consolidate` (the `merged` map after all
insertions, in insertion order). -/
def mergeAll (hs : List Holiday) : List Holiday :=
  hs.foldl mergeStep []

/-- Insert a record into a date-sorted list (helper for `sortByDate`). -/
def insertByDate (h : Holiday) : List Holiday → List Holiday
  | [] => [h]
  | x :: xs => if h.date ≤ x.date then h :: x :: xs else x :: insertByDate h xs

/-- The `sort.Slice(result, less = Date <)` step of `Consolidate`, modelled
as insertion sort: a permutation of the input ordered by ascending date
(the unstable sort of Go guarantees exactly sortedness and permutation). -/
def sortByDate (l : List Holiday) : List Holiday :=
  l.foldr insertByDate []

/-- `Consolidate` of `scraper/scraper.go`: merge by `(Date, Name)` key, then
sort ascending by date. -/
def Consolidate (hs : List Holiday) : List Holiday :=
  sortByDate (mergeAll hs)

/-! ## Page Extractor row mapping (`FetchState` after page evaluation) -/

/-- The row loop of `FetchState`: rows with fewer than three cells are
skipped (`if len(r) < 3 { continue }`); otherwise cells 0, 1, 2 become the
normalized date, the day and the name, and the states list is the singleton
canonicalized state. -/
def fetchLoop (state : String) (year : Int) : List (List String) → List Holiday
  | [] => []
  | r :: rest =>
    match r with
    | d :: dy :: nm :: _ =>
      { date := normalizeDate d year, day := dy, name := nm,
        states := [normalizeState state] } :: fetchLoop state year rest
    | _ => fetchLoop state year rest

/-- `FetchState` after a successful page evaluation yielding `rows`: when no
rows were extracted it returns `nil, nil` (empty result, no error); otherwise
it maps the rows through the row loop and returns them with no error. The
browser transport failure path (`chromedp.Run` error) is outside this pure
phase. -/
def fetchStateRows (state : String) (year : Int) (rows : List (List String)) :
    Except String (List Holiday) :=
  if rows.length = 0 then Except.ok []
  else Except.ok (fetchLoop state year rows)

/-! ## Pipeline Driver (`main`) -/

/-- The fixed state list of `main.go`, `"national"` included. -/
def mainStates : List String :=
  ["national",
   "johor", "kedah", "kelantan", "kuala-lumpur",
   "labuan", "melaka", "negeri-sembilan", "pahang",
   "penang", "perak", "perlis", "putrajaya",
   "sabah", "sarawak", "selangor", "terengganu"]

/-- The driver loop of `main`: for every state in the list, `FetchState` is
invoked (modelled by `fetch`); an error is logged and skipped, a success is
appended. Returns the accumulated records and the list of states actually
dispatched to the fetcher, in order. -/
def driverLoop (fetch : String → Except String (List Holiday)) :
    List String → List Holiday × List String
  | [] => ([], [])
  | st :: rest =>
    let r := fetch st
    let acc := driverLoop fetch rest
    (match r with
     | Except.ok hs => hs ++ acc.1
     | Except.error _ => acc.1,
     st :: acc.2)

/-- The pipeline of `main`: run the driver loop over the fixed state list and
consolidate the accumulated records. -/
def runPipeline (fetch : String → Except String (List Holiday)) : List Holiday :=
  Consolidate (driverLoop fetch mainStates).1

/-! ## Character-level lemmas -/

theorem charOfNat_toNat (n : Nat) (h : n.isValidChar) : (Char.ofNat n).toNat = n := by
  simp only [Char.ofNat, h, dite_true]
  rfl

theorem toLower_of_upper (c : Char) (hc : c.toNat ≥ 65 ∧ c.toNat ≤ 90) :
    Char.toLower c = Char.ofNat (c.toNat + 32) := by
  simp only [Char.toLower]
  rw [if_pos hc]

theorem toLower_fixed (c : Char) (h : ¬ (c.toNat ≥ 65 ∧ c.toNat ≤ 90)) : Char.toLower c = c := by
  simp only [Char.toLower]
  rw [if_neg h]

theorem toLower_not_upper (c : Char) :
    ¬ ((Char.toLower c).toNat ≥ 65 ∧ (Char.toLower c).toNat ≤ 90) := by
  by_cases hc : c.toNat ≥ 65 ∧ c.toNat ≤ 90
  · rw [toLower_of_upper c hc]
    have hv : (c.toNat + 32).isValidChar := by
      constructor
      omega
    rw [charOfNat_toNat _ hv]
    omega
  · rw [toLower_fixed c hc]
    exact hc

theorem toLower_idem (c : Char) : Char.toLower (Char.toLower c) = Char.toLower c :=
  toLower_fixed _ (toLower_not_upper c)

/-! ## Claim C1 — the driver loop and the national sentinel -/

theorem driverLoop_snd (fetch : String → Except String (List Holiday)) :
    ∀ l : List String, (driverLoop fetch l).2 = l := by
  intro l
  induction l with
  | nil => rfl
  | cons st rest ih => simp only [driverLoop, ih]

/-- C1: the claim says `FetchState` is invoked only for state identifiers
other than `"national"`. In the code the driver loop calls `FetchState` for
every entry of the fixed state list unconditionally, and `"national"` is in
that list, so `"national"` is dispatched to the page extractor (as the first
state, in fact) for every fetch function. This refutes the claim as a
property of the code; the code comments (`national excluded`, `explicitly
skip national`) show the claim matches the stated intent, so the code is the
bug. -/
theorem driver_dispatches_national (fetch : String → Except String (List Holiday)) :
    (driverLoop fetch mainStates).2 = mainStates ∧ "national" ∈ (driverLoop fetch mainStates).2 := by
  constructor
  · exact driverLoop_snd fetch mainStates
  · rw [driverLoop_snd fetch mainStates]
    decide

/-! ## Claim C9 — empty extraction and short rows -/

/-- C9: when zero rows are extracted, `FetchState` returns an empty result
with no error; the row mapping is always error-free; and a row with fewer
than three cells contributes nothing to the output. -/
theorem fetchState_empty_and_short_rows (state : String) (year : Int) :
    fetchStateRows state year [] = Except.ok [] ∧
    (∀ rows : List (List String),
      fetchStateRows state year rows = Except.ok (fetchLoop state year rows)) ∧
    (∀ (r : List String) (rest : List (List String)), r.length < 3 →
      fetchLoop state year (r :: rest) = fetchLoop state year rest) := by
  refine ⟨rfl, ?_, ?_⟩
  · intro rows
    cases rows with
    | nil => rfl
    | cons r rest => simp [fetchStateRows]
  · intro r rest hlen
    match r with
    | [] => rfl
    | [a] => rfl
    | [a, b] => rfl
    | a :: b :: c :: t =>
      simp only [List.length_cons] at hlen
      omega

/-- Witness for C9 at a concrete short row. -/
theorem fetchState_empty_and_short_rows_witness :
    (["x"] : List String).length < 3 ∧
    fetchLoop "johor" 2025 [["x"]] = fetchLoop "johor" 2025 [] :=
  ⟨by decide, (fetchState_empty_and_short_rows "johor" 2025).2.2 ["x"] [] (by decide)⟩


/-! ## Claims C5 and C6 — the Date Normalizer -/

theorem lookupTab_idx_lt :
    ∀ (tab : List String) (i : Nat) (s : List Char) (idx : Nat) (rest : List Char),
      lookupTab tab i s = some (idx, rest) → idx < i + tab.length := by
  intro tab
  induction tab with
  | nil =>
    intro i s idx rest h
    exact Option.noConfusion h
  | cons v tl ih =>
    intro i s idx rest h
    simp only [lookupTab] at h
    split at h
    · simp only [Option.some.injEq, Prod.mk.injEq] at h
      obtain ⟨h1, h2⟩ := h
      subst h1
      simp only [List.length_cons]
      omega
    · have := ih (i + 1) s idx rest h
      simp only [List.length_cons]
      omega

theorem parseDayMonth_bounds (tab : List String) (s : String) (m d : Nat)
    (h : parseDayMonth tab s = some (m, d)) :
    1 ≤ m ∧ m ≤ tab.length ∧ 1 ≤ d ∧ d ≤ daysIn m := by
  simp only [parseDayMonth] at h
  split at h
  · exact Option.noConfusion h
  · split at h
    · split at h
      · exact Option.noConfusion h
      · next day rest idx rest3 hl =>
        split at h
        · split at h
          · next hrange =>
            simp only [Option.some.injEq, Prod.mk.injEq] at h
            obtain ⟨hm, hd⟩ := h
            subst hm
            subst hd
            refine ⟨by omega, ?_, hrange.1, hrange.2⟩
            have := lookupTab_idx_lt tab 0 _ idx rest3 hl
            omega
          · exact Option.noConfusion h
        · exact Option.noConfusion h
    · exact Option.noConfusion h

theorem daysIn_le_31 (m : Nat) : daysIn m ≤ 31 := by
  simp only [daysIn]
  split
  · omega
  · split <;> omega

theorem parseDateText_bounds (s : String) (m d : Nat)
    (h : parseDateText s = some (m, d)) :
    1 ≤ m ∧ m ≤ 12 ∧ 1 ≤ d ∧ d ≤ 31 := by
  simp only [parseDateText] at h
  split at h
  · next r hshort =>
    obtain ⟨rfl⟩ := h
    obtain ⟨h1, h2, h3, h4⟩ := parseDayMonth_bounds shortMonthNames s m d hshort
    exact ⟨h1, by simpa [shortMonthNames] using h2, h3, le_trans h4 (daysIn_le_31 m)⟩
  · obtain ⟨h1, h2, h3, h4⟩ := parseDayMonth_bounds longMonthNames s m d h
    exact ⟨h1, by simpa [longMonthNames] using h2, h3, le_trans h4 (daysIn_le_31 m)⟩

theorem pad2_length (n : Nat) (h : n ≤ 31) : (pad2 n).length = 2 := by
  revert h
  revert n
  decide

/-- C5: whenever the date text parses under one of the two supported layouts
(abbreviated month name, then full month name) yielding month `m` and day
`d`, `normalizeDate` returns the caller-supplied year, a hyphen, and the
month and day each rendered as exactly two zero-padded digits; moreover the
parsed month is in 1..12 and the day in 1..31. -/
theorem normalizeDate_parsed (dateStr : String) (year : Int) (m d : Nat)
    (hp : parseDateText dateStr = some (m, d)) :
    normalizeDate dateStr year = toString year ++ "-" ++ pad2 m ++ "-" ++ pad2 d ∧
    (pad2 m).length = 2 ∧ (pad2 d).length = 2 ∧
    1 ≤ m ∧ m ≤ 12 ∧ 1 ≤ d ∧ d ≤ 31 := by
  obtain ⟨h1, h2, h3, h4⟩ := parseDateText_bounds dateStr m d hp
  refine ⟨?_, pad2_length m (by omega), pad2_length d h4, h1, h2, h3, h4⟩
  simp only [normalizeDate, hp]

/-- Witness for C5 at the concrete pair `("1 Jan", 2025)`. -/
theorem normalizeDate_parsed_witness :
    parseDateText "1 Jan" = some (1, 1) ∧
    (normalizeDate "1 Jan" 2025 = toString (2025 : Int) ++ "-" ++ pad2 1 ++ "-" ++ pad2 1 ∧
     (pad2 1).length = 2 ∧ (pad2 1).length = 2 ∧
     1 ≤ 1 ∧ 1 ≤ 12 ∧ 1 ≤ 1 ∧ 1 ≤ 31) :=
  ⟨by decide, normalizeDate_parsed "1 Jan" 2025 1 1 (by decide)⟩

/-- C6: whenever no supported layout parses the date text, `normalizeDate`
still returns deterministically (the embedding is a total function — the Go
code has no error return here): the year, a hyphen, and the original text
with every space replaced by a hyphen. -/
theorem normalizeDate_fallback (dateStr : String) (year : Int)
    (hp : parseDateText dateStr = none) :
    normalizeDate dateStr year = toString year ++ "-" ++ replaceSpaceHyphen dateStr := by
  simp only [normalizeDate, hp]

/-- Witness for C6 at the concrete unparseable text `"foo bar"`. -/
theorem normalizeDate_fallback_witness :
    parseDateText "foo bar" = none ∧
    normalizeDate "foo bar" 2025 = toString (2025 : Int) ++ "-" ++ replaceSpaceHyphen "foo bar" :=
  ⟨by decide, normalizeDate_fallback "foo bar" 2025 (by decide)⟩

/-! ## Claim C7 — idempotence of the State-Name Canonicalizer -/

theorem mem_replaceAmpAnd (l : List Char) (c : Char) (hc : c ∈ replaceAmpAnd l) :
    c = 'a' ∨ c = 'n' ∨ c = 'd' ∨ (c ∈ l ∧ c ≠ '&') := by
  induction l with
  | nil => simp [replaceAmpAnd] at hc
  | cons x xs ih =>
    simp only [replaceAmpAnd] at hc
    by_cases hx : x = '&'
    · rw [if_pos hx] at hc
      simp only [List.mem_cons] at hc
      rcases hc with h | h | h | h
      · exact Or.inl h
      · exact Or.inr (Or.inl h)
      · exact Or.inr (Or.inr (Or.inl h))
      · rcases ih h with h1 | h1 | h1 | h1
        · exact Or.inl h1
        · exact Or.inr (Or.inl h1)
        · exact Or.inr (Or.inr (Or.inl h1))
        · exact Or.inr (Or.inr (Or.inr ⟨List.mem_cons_of_mem x h1.1, h1.2⟩))
    · rw [if_neg hx] at hc
      simp only [List.mem_cons] at hc
      rcases hc with h | h
      · subst h
        exact Or.inr (Or.inr (Or.inr ⟨List.mem_cons_self c xs, hx⟩))
      · rcases ih h with h1 | h1 | h1 | h1
        · exact Or.inl h1
        · exact Or.inr (Or.inl h1)
        · exact Or.inr (Or.inr (Or.inl h1))
        · exact Or.inr (Or.inr (Or.inr ⟨List.mem_cons_of_mem x h1.1, h1.2⟩))

/-- Every character of `stateTransform s` is lowercase-fixed, not a space and
not an ampersand. -/
theorem stateTransform_chars (s : String) (c : Char) (hc : c ∈ (stateTransform s).data) :
    Char.toLower c = c ∧ c ≠ ' ' ∧ c ≠ '&' := by
  have hdata : (stateTransform s).data =
      replaceAmpAnd ((s.data.map Char.toLower).map (fun x => if x = ' ' then '-' else x)) := rfl
  rw [hdata] at hc
  have base : ∀ x ∈ (s.data.map Char.toLower).map (fun x => if x = ' ' then '-' else x),
      Char.toLower x = x ∧ x ≠ ' ' := by
    intro x hx
    simp only [List.mem_map] at hx
    obtain ⟨y, hy, rfl⟩ := hx
    obtain ⟨z, hz, rfl⟩ := hy
    by_cases hsp : Char.toLower z = ' '
    · rw [if_pos hsp]
      exact ⟨by decide, by decide⟩
    · rw [if_neg hsp]
      exact ⟨toLower_idem z, hsp⟩
  rcases mem_replaceAmpAnd _ c hc with h | h | h | h
  · subst h; exact ⟨by decide, by decide, by decide⟩
  · subst h; exact ⟨by decide, by decide, by decide⟩
  · subst h; exact ⟨by decide, by decide, by decide⟩
  · obtain ⟨hmem, hamp⟩ := h
    obtain ⟨h1, h2⟩ := base c hmem
    exact ⟨h1, h2, hamp⟩

theorem replaceAmpAnd_fixed (l : List Char) (h : ∀ c ∈ l, c ≠ '&') :
    replaceAmpAnd l = l := by
  induction l with
  | nil => rfl
  | cons x xs ih =>
    simp only [replaceAmpAnd]
    rw [if_neg (h x (List.mem_cons_self x xs))]
    rw [ih (fun c hc => h c (List.mem_cons_of_mem x hc))]

/-- On strings whose characters are already lowercase-fixed, space-free and
ampersand-free, the generic transformation is the identity. -/
theorem stateTransform_fixed (s : String)
    (h : ∀ c ∈ s.data, Char.toLower c = c ∧ c ≠ ' ' ∧ c ≠ '&') :
    stateTransform s = s := by
  apply String.ext
  show replaceAmpAnd ((s.data.map Char.toLower).map (fun x => if x = ' ' then '-' else x)) = s.data
  have h1 : s.data.map Char.toLower = s.data := by
    rw [List.map_congr_left (fun a ha => (h a ha).1)]
    exact List.map_id s.data
  rw [h1]
  have h2 : s.data.map (fun x => if x = ' ' then '-' else x) = s.data := by
    rw [List.map_congr_left (fun a ha => if_neg (h a ha).2.1)]
    exact List.map_id s.data
  rw [h2]
  exact replaceAmpAnd_fixed s.data (fun c hc => (h c hc).2.2)

theorem stateTransform_idem (s : String) :
    stateTransform (stateTransform s) = stateTransform s :=
  stateTransform_fixed _ (stateTransform_chars s)

/-- C7: the State-Name Canonicalizer is idempotent — applying
`normalizeState` twice yields the same result as applying it once. -/
theorem normalizeState_idempotent (s : String) :
    normalizeState (normalizeState s) = normalizeState s := by
  by_cases h1 : stateTransform s = "malacca"
  · have hval : normalizeState s = "melaka" := by
      simp only [normalizeState]
      rw [if_pos h1]
    rw [hval]
    decide
  · by_cases h2 : stateTransform s = "kualalumpur"
    · have hval : normalizeState s = "kuala-lumpur" := by
        simp only [normalizeState]
        rw [if_neg h1, if_pos h2]
      rw [hval]
      decide
    · by_cases h3 : stateTransform s = "putrajayaand-selangor" ∨ stateTransform s = "putrajaya-selangor"
      · have hval : normalizeState s = "putrajaya" := by
          simp only [normalizeState]
          rw [if_neg h1, if_neg h2, if_pos h3]
        rw [hval]
        decide
      · have hval : normalizeState s = stateTransform s := by
          simp only [normalizeState]
          rw [if_neg h1, if_neg h2, if_neg h3]
        rw [hval]
        simp only [normalizeState]
        rw [stateTransform_idem s]
        rw [if_neg h1, if_neg h2, if_neg h3]

/-! ## Claims C2, C3 — counterexamples from merge-key collisions

The merge key is the bare concatenation `date ++ "|" ++ name`, so a date
containing the separator character collides with a different (date, name)
pair: the records `(date := "a|b", name := "c")` and
`(date := "a", name := "b|c")` share the key `"a|b|c"` and are merged. -/

/-- C2 counterexample: in the input below the pair `("a", "b|c")` occurs as
the (date, name) of an input record, yet no record of the consolidated
output carries that date and name — the record was merged into the record
keyed by date `"a|b"`, name `"c"`. This refutes C2 as stated over all
inputs. -/
theorem consolidate_dedup_cex :
    (∃ h ∈ ([⟨"a|b", "d1", "c", ["s1"]⟩, ⟨"a", "d2", "b|c", ["s2"]⟩] : List Holiday),
        h.date = "a" ∧ h.name = "b|c") ∧
    ¬ (∃ r ∈ Consolidate [⟨"a|b", "d1", "c", ["s1"]⟩, ⟨"a", "d2", "b|c", ["s2"]⟩],
        r.date = "a" ∧ r.name = "b|c") := by
  constructor
  · decide
  · decide

/-- C3 counterexample: consolidating the two-record list above in the two
possible orders yields different sets of (date, name) keys — the surviving
key is the one of whichever colliding record comes first — so consolidation
is not permutation-invariant at the (date, name) level for all inputs. -/
theorem consolidate_perm_cex :
    List.Perm ([⟨"a", "d2", "b|c", ["s2"]⟩, ⟨"a|b", "d1", "c", ["s1"]⟩] : List Holiday)
      [⟨"a|b", "d1", "c", ["s1"]⟩, ⟨"a", "d2", "b|c", ["s2"]⟩] ∧
    (∃ r ∈ Consolidate [⟨"a", "d2", "b|c", ["s2"]⟩, ⟨"a|b", "d1", "c", ["s1"]⟩],
        r.date = "a" ∧ r.name = "b|c") ∧
    ¬ (∃ r ∈ Consolidate [⟨"a|b", "d1", "c", ["s1"]⟩, ⟨"a", "d2", "b|c", ["s2"]⟩],
        r.date = "a" ∧ r.name = "b|c") := by
  refine ⟨List.Perm.swap _ _ _, by decide, by decide⟩

/-! ## Claim C8 — the concrete two-state scenario

The holiday name of the scenario — New Year, apostrophe, s, then Day — is
written as a character list with the apostrophe as code point 39. -/

/-- C8: one row with date text `1 Jan`, day `Wednesday` and that holiday
name, fetched for
`kuala-lumpur` and the same row fetched for `putrajaya`, year 2025,
consolidate to exactly one record with date `2025-01-01`, that name, and
states `kuala-lumpur` and `putrajaya`. -/
theorem scenario_consolidate_kl_pj :
    Consolidate
      (fetchLoop "kuala-lumpur" 2025
        [["1 Jan", "Wednesday",
          String.mk ['N', 'e', 'w', ' ', 'Y', 'e', 'a', 'r', Char.ofNat 39, 's', ' ', 'D', 'a', 'y']]] ++
       fetchLoop "putrajaya" 2025
        [["1 Jan", "Wednesday",
          String.mk ['N', 'e', 'w', ' ', 'Y', 'e', 'a', 'r', Char.ofNat 39, 's', ' ', 'D', 'a', 'y']]]) =
      [{ date := "2025-01-01", day := "Wednesday",
         name := String.mk ['N', 'e', 'w', ' ', 'Y', 'e', 'a', 'r', Char.ofNat 39, 's', ' ', 'D', 'a', 'y'],
         states := ["kuala-lumpur", "putrajaya"] }] := by
  decide

/-! ## Sorting lemmas and claim C4 -/

theorem perm_insertByDate (h : Holiday) (l : List Holiday) :
    (insertByDate h l).Perm (h :: l) := by
  induction l with
  | nil => exact List.Perm.refl _
  | cons x xs ih =>
    simp only [insertByDate]
    split
    · exact List.Perm.refl _
    · exact (List.Perm.cons x ih).trans (List.Perm.swap h x xs)

theorem perm_sortByDate (l : List Holiday) : (sortByDate l).Perm l := by
  induction l with
  | nil => exact List.Perm.refl _
  | cons x xs ih => exact (perm_insertByDate x (sortByDate xs)).trans (List.Perm.cons x ih)

theorem sorted_insertByDate (h : Holiday) (l : List Holiday)
    (hl : l.Pairwise (fun a b => a.date ≤ b.date)) :
    (insertByDate h l).Pairwise (fun a b => a.date ≤ b.date) := by
  induction l with
  | nil =>
    simp only [insertByDate]
    exact List.pairwise_singleton _ _
  | cons x xs ih =>
    rw [List.pairwise_cons] at hl
    obtain ⟨hx, hxs⟩ := hl
    simp only [insertByDate]
    split
    · next hle =>
      refine List.Pairwise.cons ?_ (List.Pairwise.cons hx hxs)
      intro b hb
      rcases List.mem_cons.mp hb with rfl | hb2
      · exact hle
      · exact le_trans hle (hx b hb2)
    · next hgt =>
      have hxh : x.date ≤ h.date := le_of_not_le hgt
      refine List.Pairwise.cons ?_ (ih hxs)
      intro b hb
      rcases List.mem_cons.mp ((perm_insertByDate h xs).mem_iff.mp hb) with rfl | hb2
      · exact hxh
      · exact hx b hb2

theorem sorted_sortByDate (l : List Holiday) :
    (sortByDate l).Pairwise (fun a b => a.date ≤ b.date) := by
  induction l with
  | nil => exact List.Pairwise.nil
  | cons x xs ih => exact sorted_insertByDate x (sortByDate xs) ih

/-- C4: for every input list, the list returned by `Consolidate` is ordered
by ascending (lexicographic) date string: the date of every record is less than
or equal to the date of every later record. -/
theorem consolidate_sorted_by_date (hs : List Holiday) :
    (Consolidate hs).Pairwise (fun a b => a.date ≤ b.date) :=
  sorted_sortByDate (mergeAll hs)

/-! ## Lemmas about `unique` -/

theorem mem_uniqueGo (l : List String) :
    ∀ (seen : List String) (s : String), s ∈ uniqueGo seen l ↔ s ∈ l ∧ s ∉ seen := by
  induction l with
  | nil =>
    intro seen s
    simp [uniqueGo]
  | cons x xs ih =>
    intro seen s
    simp only [uniqueGo]
    by_cases hx : x ∈ seen
    · rw [if_pos hx, ih seen s]
      constructor
      · rintro ⟨h1, h2⟩
        exact ⟨List.mem_cons_of_mem x h1, h2⟩
      · rintro ⟨h1, h2⟩
        rcases List.mem_cons.mp h1 with rfl | h3
        · exact absurd hx h2
        · exact ⟨h3, h2⟩
    · rw [if_neg hx]
      simp only [List.mem_cons, ih (x :: seen) s]
      constructor
      · rintro (rfl | ⟨h1, h2⟩)
        · exact ⟨Or.inl rfl, hx⟩
        · exact ⟨Or.inr h1, fun hc => h2 (Or.inr hc)⟩
      · rintro ⟨hd, h2⟩
        by_cases hsx : s = x
        · exact Or.inl hsx
        · rcases hd with rfl | h1
          · exact Or.inl rfl
          · refine Or.inr ⟨h1, fun hc => ?_⟩
            rcases hc with rfl | hc2
            · exact hsx rfl
            · exact h2 hc2

theorem mem_unique (l : List String) (s : String) : s ∈ unique l ↔ s ∈ l := by
  rw [unique, mem_uniqueGo]
  simp

theorem nodup_uniqueGo (l : List String) : ∀ seen, (uniqueGo seen l).Nodup := by
  induction l with
  | nil =>
    intro seen
    simp [uniqueGo]
  | cons x xs ih =>
    intro seen
    simp only [uniqueGo]
    by_cases hx : x ∈ seen
    · rw [if_pos hx]
      exact ih seen
    · rw [if_neg hx]
      rw [List.nodup_cons]
      refine ⟨fun hc => ?_, ih (x :: seen)⟩
      exact ((mem_uniqueGo xs (x :: seen) x).mp hc).2 (List.mem_cons_self x seen)

theorem nodup_unique (l : List String) : (unique l).Nodup :=
  nodup_uniqueGo l []

/-! ## Lemmas about the merge loop of `Consolidate` -/

theorem hKey_mergeMap (h e : Holiday) :
    hKey (if hKey e == hKey h then { e with states := unique (e.states ++ h.states) } else e) =
      hKey e := by
  split
  · rfl
  · rfl

theorem keys_mergeStep (acc : List Holiday) (h : Holiday) (k : String) :
    (∃ r ∈ mergeStep acc h, hKey r = k) ↔ (∃ r ∈ acc, hKey r = k) ∨ hKey h = k := by
  simp only [mergeStep]
  split
  · next hany =>
    rw [List.any_eq_true] at hany
    obtain ⟨e0, he0, hpe0⟩ := hany
    rw [beq_iff_eq] at hpe0
    constructor
    · rintro ⟨r, hr, hkr⟩
      rw [List.mem_map] at hr
      obtain ⟨e, he, rfl⟩ := hr
      exact Or.inl ⟨e, he, (hKey_mergeMap h e) ▸ hkr⟩
    · intro hcase
      rcases hcase with ⟨e, he, hek⟩ | hk
      · refine ⟨_, List.mem_map_of_mem _ he, ?_⟩
        rw [hKey_mergeMap h e]
        exact hek
      · refine ⟨_, List.mem_map_of_mem _ he0, ?_⟩
        rw [hKey_mergeMap h e0, hpe0, hk]
  · constructor
    · rintro ⟨r, hr, hkr⟩
      rcases List.mem_append.mp hr with h1 | h1
      · exact Or.inl ⟨r, h1, hkr⟩
      · rw [List.mem_singleton] at h1
        subst h1
        exact Or.inr hkr
    · intro hcase
      rcases hcase with ⟨e, he, hek⟩ | hk
      · exact ⟨e, List.mem_append_left _ he, hek⟩
      · exact ⟨_, List.mem_append_right _ (List.mem_singleton.mpr rfl), hk⟩

theorem keys_foldl (hs : List Holiday) :
    ∀ (acc : List Holiday) (k : String),
      (∃ r ∈ List.foldl mergeStep acc hs, hKey r = k) ↔
        (∃ r ∈ acc, hKey r = k) ∨ (∃ h ∈ hs, hKey h = k) := by
  induction hs with
  | nil =>
    intro acc k
    simp
  | cons h t ih =>
    intro acc k
    rw [List.foldl_cons, ih (mergeStep acc h) k, keys_mergeStep]
    constructor
    · rintro ((ha | hh) | ht)
      · exact Or.inl ha
      · exact Or.inr ⟨h, List.mem_cons_self h t, hh⟩
      · obtain ⟨x, hx, hk⟩ := ht
        exact Or.inr ⟨x, List.mem_cons_of_mem h hx, hk⟩
    · rintro (ha | ⟨x, hx, hk⟩)
      · exact Or.inl (Or.inl ha)
      · rcases List.mem_cons.mp hx with rfl | hx2
        · exact Or.inl (Or.inr hk)
        · exact Or.inr ⟨x, hx2, hk⟩

theorem keys_mergeAll (hs : List Holiday) (k : String) :
    (∃ r ∈ mergeAll hs, hKey r = k) ↔ ∃ h ∈ hs, hKey h = k := by
  have h := keys_foldl hs [] k
  simpa [mergeAll] using h

theorem skel_mergeStep (acc : List Holiday) (h : Holiday) :
    ∀ r ∈ mergeStep acc h,
      (∃ e ∈ acc, r.date = e.date ∧ r.day = e.day ∧ r.name = e.name) ∨
      (r.date = h.date ∧ r.day = h.day ∧ r.name = h.name) := by
  intro r hr
  simp only [mergeStep] at hr
  split at hr
  · rw [List.mem_map] at hr
    obtain ⟨e, he, rfl⟩ := hr
    refine Or.inl ⟨e, he, ?_⟩
    split
    · exact ⟨rfl, rfl, rfl⟩
    · exact ⟨rfl, rfl, rfl⟩
  · rcases List.mem_append.mp hr with h1 | h1
    · exact Or.inl ⟨r, h1, rfl, rfl, rfl⟩
    · rw [List.mem_singleton] at h1
      subst h1
      exact Or.inr ⟨rfl, rfl, rfl⟩

theorem skel_foldl (hs : List Holiday) :
    ∀ acc, ∀ r ∈ List.foldl mergeStep acc hs,
      (∃ e ∈ acc, r.date = e.date ∧ r.day = e.day ∧ r.name = e.name) ∨
      (∃ h ∈ hs, r.date = h.date ∧ r.day = h.day ∧ r.name = h.name) := by
  induction hs with
  | nil =>
    intro acc r hr
    exact Or.inl ⟨r, hr, rfl, rfl, rfl⟩
  | cons h t ih =>
    intro acc r hr
    rw [List.foldl_cons] at hr
    rcases ih (mergeStep acc h) r hr with ⟨e, he, hs1, hs2, hs3⟩ | ⟨x, hx, hskel⟩
    · rcases skel_mergeStep acc h e he with ⟨e2, he2, ht1, ht2, ht3⟩ | ⟨ht1, ht2, ht3⟩
      · exact Or.inl ⟨e2, he2, by rw [hs1, ht1], by rw [hs2, ht2], by rw [hs3, ht3]⟩
      · exact Or.inr ⟨h, List.mem_cons_self h t, by rw [hs1, ht1], by rw [hs2, ht2], by rw [hs3, ht3]⟩
    · exact Or.inr ⟨x, List.mem_cons_of_mem h hx, hskel⟩

theorem skel_mergeAll (hs : List Holiday) :
    ∀ r ∈ mergeAll hs, ∃ h ∈ hs, r.date = h.date ∧ r.day = h.day ∧ r.name = h.name := by
  intro r hr
  rcases skel_foldl hs [] r hr with ⟨e, he, _⟩ | h2
  · exact absurd he (List.not_mem_nil e)
  · exact h2

theorem NK_mergeStep (acc : List Holiday) (h : Holiday) (hn : (acc.map hKey).Nodup) :
    ((mergeStep acc h).map hKey).Nodup := by
  simp only [mergeStep]
  split
  · rw [List.map_map]
    have hcomp : (hKey ∘ fun e =>
        if hKey e == hKey h then { e with states := unique (e.states ++ h.states) } else e) = hKey := by
      funext e
      exact hKey_mergeMap h e
    rw [hcomp]
    exact hn
  · next hany =>
    have hno : ∀ e ∈ acc, ¬ hKey e = hKey h := by
      intro e he hek
      exact hany (List.any_eq_true.mpr ⟨e, he, beq_iff_eq.mpr hek⟩)
    rw [List.map_append]
    refine List.Nodup.append hn (by simp) ?_
    intro a ha hb
    rw [List.mem_map] at ha
    obtain ⟨e, he, rfl⟩ := ha
    simp only [List.map_cons, List.map_nil, List.mem_singleton] at hb
    exact hno e he hb

theorem NK_mergeAll (hs : List Holiday) : ((mergeAll hs).map hKey).Nodup := by
  rw [mergeAll]
  have haux : ∀ acc : List Holiday, (acc.map hKey).Nodup →
      ((List.foldl mergeStep acc hs).map hKey).Nodup := by
    induction hs with
    | nil => intro acc hn; exact hn
    | cons h t ih =>
      intro acc hn
      rw [List.foldl_cons]
      exact ih (mergeStep acc h) (NK_mergeStep acc h hn)
  exact haux [] (by simp)

theorem statesNodup_mergeStep (acc : List Holiday) (h : Holiday)
    (hn : ∀ r ∈ acc, r.states.Nodup) :
    ∀ r ∈ mergeStep acc h, r.states.Nodup := by
  intro r hr
  simp only [mergeStep] at hr
  split at hr
  · rw [List.mem_map] at hr
    obtain ⟨e, he, rfl⟩ := hr
    split
    · exact nodup_unique _
    · exact hn e he
  · rcases List.mem_append.mp hr with h1 | h1
    · exact hn r h1
    · rw [List.mem_singleton] at h1
      subst h1
      exact nodup_unique _

theorem statesNodup_mergeAll (hs : List Holiday) :
    ∀ r ∈ mergeAll hs, r.states.Nodup := by
  rw [mergeAll]
  have haux : ∀ acc : List Holiday, (∀ r ∈ acc, r.states.Nodup) →
      ∀ r ∈ List.foldl mergeStep acc hs, r.states.Nodup := by
    induction hs with
    | nil => intro acc hn; exact hn
    | cons h t ih =>
      intro acc hn
      rw [List.foldl_cons]
      exact ih (mergeStep acc h) (statesNodup_mergeStep acc h hn)
  exact haux [] (by simp)

theorem findKey_map_pres (k : String) (h : Holiday) (acc : List Holiday) :
    List.find? (fun e => hKey e == k)
      (acc.map (fun e =>
        if hKey e == hKey h then { e with states := unique (e.states ++ h.states) } else e)) =
    Option.map (fun e =>
        if hKey e == hKey h then { e with states := unique (e.states ++ h.states) } else e)
      (List.find? (fun e => hKey e == k) acc) := by
  rw [List.find?_map]
  have hcomp : ((fun e => hKey e == k) ∘ (fun e =>
      if hKey e == hKey h then { e with states := unique (e.states ++ h.states) } else e)) =
      (fun e => hKey e == k) := by
    funext e
    simp only [Function.comp_apply]
    rw [hKey_mergeMap h e]
  rw [hcomp]

theorem findKey_mergeStep_ne (acc : List Holiday) (h : Holiday) (k : String) (hk : hKey h ≠ k) :
    List.find? (fun e => hKey e == k) (mergeStep acc h) =
      List.find? (fun e => hKey e == k) acc := by
  simp only [mergeStep]
  split
  · rw [findKey_map_pres k h acc]
    cases hf : List.find? (fun e => hKey e == k) acc with
    | none => rfl
    | some e =>
      rw [Option.map_some']
      have hpe : ((fun e => hKey e == k) e) = true :=
        @List.find?_some Holiday (fun e => hKey e == k) e acc hf
      have hek : hKey e = k := beq_iff_eq.mp hpe
      have hne : ¬ (hKey e == hKey h) = true := by
        rw [beq_iff_eq]
        intro hEq
        exact hk (hEq ▸ hek)
      rw [if_neg hne]
  · rw [List.find?_append]
    have hsingle : List.find? (fun e => hKey e == k) [{ h with states := unique h.states }] = none := by
      rw [List.find?_eq_none]
      intro x hx
      rw [List.mem_singleton] at hx
      subst hx
      rw [beq_iff_eq]
      exact fun hc => hk hc
    rw [hsingle, Option.or_none]

theorem findKey_mergeStep_hit (acc : List Holiday) (h : Holiday) (e : Holiday)
    (hf : List.find? (fun x => hKey x == hKey h) acc = some e) :
    List.find? (fun x => hKey x == hKey h) (mergeStep acc h) =
      some { e with states := unique (e.states ++ h.states) } := by
  have hpe : ((fun x => hKey x == hKey h) e) = true :=
    @List.find?_some Holiday (fun x => hKey x == hKey h) e acc hf
  have hany : acc.any (fun x => hKey x == hKey h) = true :=
    List.any_eq_true.mpr ⟨e, List.mem_of_find?_eq_some hf, hpe⟩
  simp only [mergeStep]
  rw [if_pos hany, findKey_map_pres (hKey h) h acc, hf, Option.map_some']
  rw [if_pos hpe]

theorem findKey_mergeStep_new (acc : List Holiday) (h : Holiday)
    (hnone : List.find? (fun x => hKey x == hKey h) acc = none) :
    List.find? (fun x => hKey x == hKey h) (mergeStep acc h) =
      some { h with states := unique h.states } := by
  have hany : ¬ acc.any (fun x => hKey x == hKey h) = true := by
    intro hc
    obtain ⟨x, hx, hpx⟩ := List.any_eq_true.mp hc
    rw [List.find?_eq_none] at hnone
    exact hnone x hx hpx
  simp only [mergeStep]
  rw [if_neg hany, List.find?_append, hnone, Option.none_or]
  exact List.find?_cons_of_pos [] (beq_iff_eq.mpr rfl)

theorem findKey_foldl_skel (hs : List Holiday) :
    ∀ (acc : List Holiday) (k : String) (r : Holiday),
      List.find? (fun e => hKey e == k) (List.foldl mergeStep acc hs) = some r →
      (∃ e, List.find? (fun x => hKey x == k) acc = some e ∧
        r.date = e.date ∧ r.day = e.day ∧ r.name = e.name) ∨
      (List.find? (fun x => hKey x == k) acc = none ∧
       ∃ h, hs.find? (fun x => hKey x == k) = some h ∧
        r.date = h.date ∧ r.day = h.day ∧ r.name = h.name) := by
  induction hs with
  | nil =>
    intro acc k r hr
    exact Or.inl ⟨r, hr, rfl, rfl, rfl⟩
  | cons h t ih =>
    intro acc k r hr
    rw [List.foldl_cons] at hr
    by_cases hk : hKey h = k
    · subst hk
      cases hf : List.find? (fun x => hKey x == hKey h) acc with
      | some e =>
        have hstep := findKey_mergeStep_hit acc h e hf
        rcases ih (mergeStep acc h) (hKey h) r hr with ⟨e2, he2, hs1, hs2, hs3⟩ | ⟨hnone, _⟩
        · rw [hstep] at he2
          injection he2 with he2
          subst he2
          exact Or.inl ⟨e, rfl, hs1, hs2, hs3⟩
        · rw [hstep] at hnone
          exact Option.noConfusion hnone
      | none =>
        have hstep := findKey_mergeStep_new acc h hf
        rcases ih (mergeStep acc h) (hKey h) r hr with ⟨e2, he2, hs1, hs2, hs3⟩ | ⟨hnone, _⟩
        · rw [hstep] at he2
          injection he2 with he2
          subst he2
          exact Or.inr ⟨rfl, h, List.find?_cons_of_pos t (beq_iff_eq.mpr rfl), hs1, hs2, hs3⟩
        · rw [hstep] at hnone
          exact Option.noConfusion hnone
    · have hstep := findKey_mergeStep_ne acc h k hk
      rcases ih (mergeStep acc h) k r hr with ⟨e, he, hskel⟩ | ⟨hnone, x, hx, hskel⟩
      · rw [hstep] at he
        exact Or.inl ⟨e, he, hskel⟩
      · rw [hstep] at hnone
        have hpneg : ¬ ((fun x => hKey x == k) h) = true := by
          rw [beq_iff_eq]
          exact hk
        refine Or.inr ⟨hnone, x, ?_, hskel⟩
        rw [List.find?_cons_of_neg t hpneg]
        exact hx

theorem findKey_foldl_states (hs : List Holiday) :
    ∀ (acc : List Holiday) (k : String) (r : Holiday) (s : String),
      List.find? (fun e => hKey e == k) (List.foldl mergeStep acc hs) = some r →
      (s ∈ r.states ↔
        (∃ e, List.find? (fun x => hKey x == k) acc = some e ∧ s ∈ e.states) ∨
        (∃ h ∈ hs, hKey h = k ∧ s ∈ h.states)) := by
  induction hs with
  | nil =>
    intro acc k r s hr
    simp only [List.foldl_nil] at hr
    constructor
    · intro hmem
      exact Or.inl ⟨r, hr, hmem⟩
    · rintro (⟨e, he, hmem⟩ | ⟨h, hh, _⟩)
      · rw [hr] at he
        injection he with he
        subst he
        exact hmem
      · exact absurd hh (List.not_mem_nil h)
  | cons h t ih =>
    intro acc k r s hr
    rw [List.foldl_cons] at hr
    by_cases hk : hKey h = k
    · subst hk
      cases hf : List.find? (fun x => hKey x == hKey h) acc with
      | some e =>
        have hstep := findKey_mergeStep_hit acc h e hf
        rw [ih (mergeStep acc h) (hKey h) r s hr]
        constructor
        · rintro (⟨e2, he2, hmem⟩ | ⟨x, hx, hkx, hmem⟩)
          · rw [hstep] at he2
            injection he2 with he2
            subst he2
            rcases List.mem_append.mp ((mem_unique (e.states ++ h.states) s).mp hmem) with hm | hm
            · exact Or.inl ⟨e, rfl, hm⟩
            · exact Or.inr ⟨h, List.mem_cons_self h t, rfl, hm⟩
          · exact Or.inr ⟨x, List.mem_cons_of_mem h hx, hkx, hmem⟩
        · rintro (⟨e2, he2, hmem⟩ | ⟨x, hx, hkx, hmem⟩)
          · injection he2 with he2
            subst he2
            refine Or.inl ⟨{ e with states := unique (e.states ++ h.states) }, hstep, ?_⟩
            exact (mem_unique (e.states ++ h.states) s).mpr (List.mem_append_left _ hmem)
          · rcases List.mem_cons.mp hx with rfl | hx2
            · refine Or.inl ⟨{ e with states := unique (e.states ++ x.states) }, hstep, ?_⟩
              exact (mem_unique (e.states ++ x.states) s).mpr (List.mem_append_right _ hmem)
            · exact Or.inr ⟨x, hx2, hkx, hmem⟩
      | none =>
        have hstep := findKey_mergeStep_new acc h hf
        rw [ih (mergeStep acc h) (hKey h) r s hr]
        constructor
        · rintro (⟨e2, he2, hmem⟩ | ⟨x, hx, hkx, hmem⟩)
          · rw [hstep] at he2
            injection he2 with he2
            subst he2
            exact Or.inr ⟨h, List.mem_cons_self h t, rfl, (mem_unique h.states s).mp hmem⟩
          · exact Or.inr ⟨x, List.mem_cons_of_mem h hx, hkx, hmem⟩
        · rintro (⟨e2, he2, hmem⟩ | ⟨x, hx, hkx, hmem⟩)
          · exact Option.noConfusion he2
          · rcases List.mem_cons.mp hx with rfl | hx2
            · exact Or.inl ⟨{ x with states := unique x.states }, hstep,
                (mem_unique x.states s).mpr hmem⟩
            · exact Or.inr ⟨x, hx2, hkx, hmem⟩
    · have hstep := findKey_mergeStep_ne acc h k hk
      rw [ih (mergeStep acc h) k r s hr, hstep]
      constructor
      · rintro (⟨e, he, hmem⟩ | ⟨x, hx, hkx, hmem⟩)
        · exact Or.inl ⟨e, he, hmem⟩
        · exact Or.inr ⟨x, List.mem_cons_of_mem h hx, hkx, hmem⟩
      · rintro (⟨e, he, hmem⟩ | ⟨x, hx, hkx, hmem⟩)
        · exact Or.inl ⟨e, he, hmem⟩
        · rcases List.mem_cons.mp hx with rfl | hx2
          · exact absurd hkx hk
          · exact Or.inr ⟨x, hx2, hkx, hmem⟩

theorem findKey_of_mem (r : Holiday) :
    ∀ l : List Holiday, (l.map hKey).Nodup → r ∈ l →
      List.find? (fun e => hKey e == hKey r) l = some r := by
  intro l
  induction l with
  | nil =>
    intro _ hr
    exact absurd hr (List.not_mem_nil r)
  | cons x xs ih =>
    intro hn hr
    rw [List.map_cons, List.nodup_cons] at hn
    obtain ⟨hnx, hnxs⟩ := hn
    by_cases hxr : hKey x = hKey r
    · rw [@List.find?_cons_of_pos Holiday (fun e => hKey e == hKey r) x xs (beq_iff_eq.mpr hxr)]
      rcases List.mem_cons.mp hr with rfl | hr2
      · rfl
      · exfalso
        apply hnx
        rw [hxr]
        exact List.mem_map_of_mem hKey hr2
    · have hneg : ¬ ((fun e => hKey e == hKey r) x) = true := by
        rw [beq_iff_eq]
        exact hxr
      rw [List.find?_cons_of_neg xs hneg]
      rcases List.mem_cons.mp hr with rfl | hr2
      · exact absurd rfl hxr
      · exact ih hnxs hr2

/-! ## Injectivity of the merge key on bar-free dates -/

theorem barFree_append_inj :
    ∀ (a b x y : List Char), '|' ∉ a → '|' ∉ b →
      a ++ '|' :: x = b ++ '|' :: y → a = b ∧ x = y := by
  intro a
  induction a with
  | nil =>
    intro b x y _ hb heq
    cases b with
    | nil =>
      simp only [List.nil_append] at heq
      injection heq with _ h2
      exact ⟨rfl, h2⟩
    | cons c cs =>
      simp only [List.nil_append, List.cons_append] at heq
      injection heq with h1 h2
      exfalso
      apply hb
      rw [← h1]
      exact List.mem_cons_self _ _
  | cons c cs ih =>
    intro b x y ha hb heq
    cases b with
    | nil =>
      simp only [List.cons_append, List.nil_append] at heq
      injection heq with h1 h2
      exfalso
      apply ha
      rw [h1]
      exact List.mem_cons_self _ _
    | cons d ds =>
      simp only [List.cons_append] at heq
      injection heq with h1 h2
      subst h1
      have hrec := ih ds x y (fun hm => ha (List.mem_cons_of_mem _ hm))
        (fun hm => hb (List.mem_cons_of_mem _ hm)) h2
      exact ⟨by rw [hrec.1], hrec.2⟩

theorem key_parts_inj (d1 n1 d2 n2 : String)
    (f1 : '|' ∉ d1.data) (f2 : '|' ∉ d2.data)
    (he : d1 ++ "|" ++ n1 = d2 ++ "|" ++ n2) : d1 = d2 ∧ n1 = n2 := by
  have hd := congrArg String.data he
  rw [String.data_append, String.data_append, String.data_append, String.data_append,
    List.append_assoc, List.append_assoc] at hd
  obtain ⟨h1, h2⟩ := barFree_append_inj d1.data d2.data n1.data n2.data f1 f2 hd
  exact ⟨String.ext h1, String.ext h2⟩

/-! ## Consolidate-level characterization -/

theorem consolidate_keys_iff (hs : List Holiday)
    (hfree : ∀ h ∈ hs, '|' ∉ h.date.data) (d n : String) :
    (∃ r ∈ Consolidate hs, r.date = d ∧ r.name = n) ↔
      (∃ h ∈ hs, h.date = d ∧ h.name = n) := by
  constructor
  · rintro ⟨r, hr, rfl, rfl⟩
    have hr2 : r ∈ mergeAll hs := (perm_sortByDate (mergeAll hs)).mem_iff.mp hr
    obtain ⟨h, hh, hd, _, hn⟩ := skel_mergeAll hs r hr2
    exact ⟨h, hh, hd.symm, hn.symm⟩
  · rintro ⟨h, hh, rfl, rfl⟩
    obtain ⟨r, hr, hkr⟩ := (keys_mergeAll hs (hKey h)).mpr ⟨h, hh, rfl⟩
    refine ⟨r, (perm_sortByDate (mergeAll hs)).mem_iff.mpr hr, ?_⟩
    obtain ⟨h2, hh2, hd2, _, _⟩ := skel_mergeAll hs r hr
    have hrfree : '|' ∉ r.date.data := by
      rw [hd2]
      exact hfree h2 hh2
    exact key_parts_inj r.date r.name h.date h.name hrfree (hfree h hh) hkr

theorem consolidate_states_iff (hs : List Holiday)
    (hfree : ∀ h ∈ hs, '|' ∉ h.date.data) (r : Holiday)
    (hr : r ∈ Consolidate hs) (s : String) :
    s ∈ r.states ↔ ∃ h ∈ hs, h.date = r.date ∧ h.name = r.name ∧ s ∈ h.states := by
  have hr2 : r ∈ mergeAll hs := (perm_sortByDate (mergeAll hs)).mem_iff.mp hr
  have hfk : List.find? (fun e => hKey e == hKey r) (mergeAll hs) = some r :=
    findKey_of_mem r (mergeAll hs) (NK_mergeAll hs) hr2
  rw [findKey_foldl_states hs [] (hKey r) r s hfk]
  constructor
  · rintro (⟨e, he, _⟩ | ⟨h, hh, hkh, hmem⟩)
    · exact Option.noConfusion he
    · obtain ⟨h2, hh2, hd2, _, _⟩ := skel_mergeAll hs r hr2
      have hrfree : '|' ∉ r.date.data := by
        rw [hd2]
        exact hfree h2 hh2
      obtain ⟨he1, he2⟩ := key_parts_inj h.date h.name r.date r.name (hfree h hh) hrfree hkh
      exact ⟨h, hh, he1, he2, hmem⟩
  · rintro ⟨h, hh, hd, hn, hmem⟩
    refine Or.inr ⟨h, hh, ?_, hmem⟩
    show hKey h = hKey r
    rw [hKey, hKey, hd, hn]

theorem consolidate_unique_key (hs : List Holiday) (r1 r2 : Holiday)
    (h1 : r1 ∈ Consolidate hs) (h2 : r2 ∈ Consolidate hs)
    (hk : hKey r1 = hKey r2) : r1 = r2 := by
  have hperm : (Consolidate hs).Perm (mergeAll hs) := perm_sortByDate (mergeAll hs)
  have hn : ((Consolidate hs).map hKey).Nodup :=
    (hperm.map hKey).nodup_iff.mpr (NK_mergeAll hs)
  exact List.inj_on_of_nodup_map hn h1 h2 hk

/-- C2 (amended): for every input list in which no record date contains the
bar character — the merge-key separator, whose presence in a date makes
distinct (date, name) pairs collide, see the counterexample — every
(date, name) pair occurring in the input appears in exactly one record of
`Consolidate`, and the states of that record are duplicate-free and contain
exactly the states of the input records carrying that date and name. -/
theorem consolidate_dedup_union (hs : List Holiday)
    (hfree : ∀ h ∈ hs, '|' ∉ h.date.data) (d n : String)
    (hocc : ∃ h ∈ hs, h.date = d ∧ h.name = n) :
    (∃! r, r ∈ Consolidate hs ∧ r.date = d ∧ r.name = n) ∧
    (∀ r ∈ Consolidate hs, r.date = d → r.name = n →
      r.states.Nodup ∧
      ∀ s, (s ∈ r.states ↔ ∃ h ∈ hs, h.date = d ∧ h.name = n ∧ s ∈ h.states)) := by
  constructor
  · obtain ⟨r, hr, hd, hn⟩ := (consolidate_keys_iff hs hfree d n).mpr hocc
    refine ⟨r, ⟨hr, hd, hn⟩, ?_⟩
    rintro y ⟨hy, hyd, hyn⟩
    apply consolidate_unique_key hs y r hy hr
    rw [hKey, hKey, hyd, hyn, hd, hn]
  · intro r hr hd hn
    refine ⟨statesNodup_mergeAll hs r ((perm_sortByDate (mergeAll hs)).mem_iff.mp hr), ?_⟩
    intro s
    rw [consolidate_states_iff hs hfree r hr s, hd, hn]

/-- Witness for C2 on a concrete two-record input sharing one
(date, name). -/
theorem consolidate_dedup_union_witness :
    (∀ h ∈ ([⟨"2025-01-01", "Wed", "NY", ["kl"]⟩,
             ⟨"2025-01-01", "Thu", "NY", ["pj"]⟩] : List Holiday), '|' ∉ h.date.data) ∧
    (∃ h ∈ ([⟨"2025-01-01", "Wed", "NY", ["kl"]⟩,
             ⟨"2025-01-01", "Thu", "NY", ["pj"]⟩] : List Holiday),
        h.date = "2025-01-01" ∧ h.name = "NY") ∧
    ((∃! r, r ∈ Consolidate [⟨"2025-01-01", "Wed", "NY", ["kl"]⟩,
                             ⟨"2025-01-01", "Thu", "NY", ["pj"]⟩] ∧
        r.date = "2025-01-01" ∧ r.name = "NY") ∧
     (∀ r ∈ Consolidate [⟨"2025-01-01", "Wed", "NY", ["kl"]⟩,
                         ⟨"2025-01-01", "Thu", "NY", ["pj"]⟩],
        r.date = "2025-01-01" → r.name = "NY" →
        r.states.Nodup ∧
        ∀ s, (s ∈ r.states ↔
          ∃ h ∈ ([⟨"2025-01-01", "Wed", "NY", ["kl"]⟩,
                  ⟨"2025-01-01", "Thu", "NY", ["pj"]⟩] : List Holiday),
            h.date = "2025-01-01" ∧ h.name = "NY" ∧ s ∈ h.states))) :=
  ⟨by decide, by decide,
    consolidate_dedup_union _ (by decide) "2025-01-01" "NY" (by decide)⟩

/-- C3 (amended): for every input list in which no record date contains the
bar character (the merge-key separator; see the counterexample) and every
permutation of it, consolidation yields the same (date, name) keys and, for
each key, the same set of observing states. -/
theorem consolidate_perm_invariant (hs1 hs2 : List Holiday) (hperm : hs1.Perm hs2)
    (hfree : ∀ h ∈ hs1, '|' ∉ h.date.data) (d n s : String) :
    ((∃ r ∈ Consolidate hs1, r.date = d ∧ r.name = n) ↔
      (∃ r ∈ Consolidate hs2, r.date = d ∧ r.name = n)) ∧
    ((∃ r ∈ Consolidate hs1, r.date = d ∧ r.name = n ∧ s ∈ r.states) ↔
      (∃ r ∈ Consolidate hs2, r.date = d ∧ r.name = n ∧ s ∈ r.states)) := by
  have hfree2 : ∀ h ∈ hs2, '|' ∉ h.date.data := fun h hh => hfree h (hperm.mem_iff.mpr hh)
  constructor
  · rw [consolidate_keys_iff hs1 hfree d n, consolidate_keys_iff hs2 hfree2 d n]
    constructor
    · rintro ⟨h, hh, hp⟩
      exact ⟨h, hperm.mem_iff.mp hh, hp⟩
    · rintro ⟨h, hh, hp⟩
      exact ⟨h, hperm.mem_iff.mpr hh, hp⟩
  · have haux : ∀ (hs : List Holiday), (∀ h ∈ hs, '|' ∉ h.date.data) →
        ((∃ r ∈ Consolidate hs, r.date = d ∧ r.name = n ∧ s ∈ r.states) ↔
          (∃ h ∈ hs, h.date = d ∧ h.name = n ∧ s ∈ h.states)) := by
      intro hs hf
      constructor
      · rintro ⟨r, hr, hd, hn, hmem⟩
        obtain ⟨h, hh, h1, h2, h3⟩ := (consolidate_states_iff hs hf r hr s).mp hmem
        exact ⟨h, hh, by rw [h1, hd], by rw [h2, hn], h3⟩
      · rintro ⟨h, hh, hd, hn, hmem⟩
        obtain ⟨r, hr, hrd, hrn⟩ := (consolidate_keys_iff hs hf d n).mpr ⟨h, hh, hd, hn⟩
        refine ⟨r, hr, hrd, hrn, ?_⟩
        rw [consolidate_states_iff hs hf r hr s]
        exact ⟨h, hh, by rw [hd, hrd], by rw [hn, hrn], hmem⟩
    rw [haux hs1 hfree, haux hs2 hfree2]
    constructor
    · rintro ⟨h, hh, hp⟩
      exact ⟨h, hperm.mem_iff.mp hh, hp⟩
    · rintro ⟨h, hh, hp⟩
      exact ⟨h, hperm.mem_iff.mpr hh, hp⟩

/-- Witness for C3 on a concrete permutation of a two-record input. -/
theorem consolidate_perm_invariant_witness :
    List.Perm ([⟨"2025-01-01", "Wed", "NY", ["kl"]⟩,
                ⟨"2025-01-01", "Thu", "NY", ["pj"]⟩] : List Holiday)
      [⟨"2025-01-01", "Thu", "NY", ["pj"]⟩, ⟨"2025-01-01", "Wed", "NY", ["kl"]⟩] ∧
    (∀ h ∈ ([⟨"2025-01-01", "Wed", "NY", ["kl"]⟩,
             ⟨"2025-01-01", "Thu", "NY", ["pj"]⟩] : List Holiday), '|' ∉ h.date.data) ∧
    (((∃ r ∈ Consolidate [⟨"2025-01-01", "Wed", "NY", ["kl"]⟩,
                          ⟨"2025-01-01", "Thu", "NY", ["pj"]⟩],
          r.date = "2025-01-01" ∧ r.name = "NY") ↔
       (∃ r ∈ Consolidate [⟨"2025-01-01", "Thu", "NY", ["pj"]⟩,
                           ⟨"2025-01-01", "Wed", "NY", ["kl"]⟩],
          r.date = "2025-01-01" ∧ r.name = "NY")) ∧
     ((∃ r ∈ Consolidate [⟨"2025-01-01", "Wed", "NY", ["kl"]⟩,
                          ⟨"2025-01-01", "Thu", "NY", ["pj"]⟩],
          r.date = "2025-01-01" ∧ r.name = "NY" ∧ "pj" ∈ r.states) ↔
       (∃ r ∈ Consolidate [⟨"2025-01-01", "Thu", "NY", ["pj"]⟩,
                           ⟨"2025-01-01", "Wed", "NY", ["kl"]⟩],
          r.date = "2025-01-01" ∧ r.name = "NY" ∧ "pj" ∈ r.states))) :=
  ⟨by decide, by decide,
    consolidate_perm_invariant _ _ (by decide) (by decide) "2025-01-01" "NY" "pj"⟩

/-- C10: when several input records share the same merge key (date and
name), the consolidated record for that key takes its day — and its date and
name — from the first such record in input order; the day values of all
later records with that key do not appear in that record. -/
theorem consolidate_day_from_first (hs : List Holiday) (k : String) (h0 : Holiday)
    (hfind : hs.find? (fun h => hKey h == k) = some h0) :
    ∀ r ∈ Consolidate hs, hKey r = k →
      r.date = h0.date ∧ r.day = h0.day ∧ r.name = h0.name := by
  intro r hr hkr
  have hr2 : r ∈ mergeAll hs := (perm_sortByDate (mergeAll hs)).mem_iff.mp hr
  have hfk : List.find? (fun e => hKey e == hKey r) (mergeAll hs) = some r :=
    findKey_of_mem r (mergeAll hs) (NK_mergeAll hs) hr2
  rw [hkr] at hfk
  rcases findKey_foldl_skel hs [] k r hfk with ⟨e, he, _⟩ | ⟨_, h2, hfind2, hskel⟩
  · exact Option.noConfusion he
  · rw [hfind] at hfind2
    injection hfind2 with h2eq
    subst h2eq
    exact hskel

/-- Witness for C10: two records with the same key and different day labels;
the consolidated record keeps the first day. -/
theorem consolidate_day_from_first_witness :
    (([⟨"d", "Mon", "n", ["a"]⟩, ⟨"d", "Tue", "n", ["b"]⟩] : List Holiday).find?
        (fun h => hKey h == "d|n") = some ⟨"d", "Mon", "n", ["a"]⟩) ∧
    (∀ r ∈ Consolidate [⟨"d", "Mon", "n", ["a"]⟩, ⟨"d", "Tue", "n", ["b"]⟩],
      hKey r = "d|n" → r.date = "d" ∧ r.day = "Mon" ∧ r.name = "n") :=
  ⟨by decide,
    consolidate_day_from_first _ "d|n" ⟨"d", "Mon", "n", ["a"]⟩ (by decide)⟩
